import Mathlib

/-!
Shallow embedding of the Shabda Setu data pipeline
(`src/utils/script_utils.py`, `src/core/word_reconciliation.py`,
`src/data/data_collection.py`, `src/data/scrapers/*.py`) and proofs about it.

Python floats are modelled as rationals (`ℚ`), strings as their lists of
Unicode code points (`List Nat`), and Python dictionaries with fixed key
sets as structures with `Option` fields for possibly-missing keys.
Fallible Python code (code that can raise) is modelled with
`Option`/`Except` results.
-/

namespace ShabdaSetu

/-! ### `script_utils.Script` — the `Script` enum.

The enum defines exactly these eight members, in this order.  Note that
`GURMUKHI`, `GUJARATI` and `ODIA` are *not* members, although other modules
of the repository refer to `Script.GURMUKHI` / `Script.GUJARATI` /
`Script.ODIA`; accessing a missing member of a Python `Enum` class raises
`AttributeError`. -/
inductive Script where
  | devanagari
  | tamil
  | bengali
  | telugu
  | malayalam
  | kannada
  | latin
  | iast
  deriving DecidableEq, Repr, Fintype

/-- Members of the `Script` enum in definition order (Python iterates an
`Enum` class, and a dict comprehension over it, in this order). -/
def scriptMembers : List Script :=
  [.devanagari, .tamil, .bengali, .telugu, .malayalam, .kannada, .latin, .iast]

/-- Python attribute access `Script.<name>` for the modelled members:
`some` for a defined member, `none` for a missing one (Python raises
`AttributeError` in that case). -/
def scriptAttr : String → Option Script
  | "DEVANAGARI" => some .devanagari
  | "TAMIL" => some .tamil
  | "BENGALI" => some .bengali
  | "TELUGU" => some .telugu
  | "MALAYALAM" => some .malayalam
  | "KANNADA" => some .kannada
  | "LATIN" => some .latin
  | "IAST" => some .iast
  | _ => none

/-- `ScriptUtils.SCRIPT_RANGES`: per-script inclusive Unicode ranges.
The dict's insertion order coincides with `scriptMembers`. -/
def SCRIPT_RANGES : Script → List (Nat × Nat)
  | .devanagari => [(0x0900, 0x097F)]
  | .tamil => [(0x0B80, 0x0BFF)]
  | .bengali => [(0x0980, 0x09FF)]
  | .telugu => [(0x0C00, 0x0C7F)]
  | .malayalam => [(0x0D00, 0x0D7F)]
  | .kannada => [(0x0C80, 0x0CFF)]
  | .latin => [(0x0000, 0x007F)]
  | .iast => [(0x0000, 0x007F), (0x0100, 0x017F), (0x1E00, 0x1EFF)]

/-- `any(start <= char_code <= end for start, end in ranges)`. -/
def inRanges (s : Script) (c : Nat) : Bool :=
  (SCRIPT_RANGES s).any fun p => decide (p.1 ≤ c) && decide (c ≤ p.2)

/-- `ScriptUtils.DIACRITICS`: the keys of the diacritical-marks dict. -/
def DIACRITICS : List Nat :=
  [0x0951, 0x0952, 0x0901, 0x0902, 0x0903, 0x093C, 0x0943, 0x0944, 0x094D]

/-- Python `str.isspace` on a single code point, restricted to the Unicode
whitespace code points (the full Python set on the Basic Multilingual
Plane). -/
def isspace (c : Nat) : Bool :=
  c ∈ [0x09, 0x0A, 0x0B, 0x0C, 0x0D, 0x1C, 0x1D, 0x1E, 0x1F, 0x20,
       0x85, 0xA0, 0x1680,
       0x2000, 0x2001, 0x2002, 0x2003, 0x2004, 0x2005, 0x2006, 0x2007,
       0x2008, 0x2009, 0x200A, 0x2028, 0x2029, 0x202F, 0x205F, 0x3000]

/-- Python `str.isnumeric` on a single code point, restricted to the ASCII
and Indic decimal-digit / numeral blocks relevant to the scripts this
project handles. -/
def isnumeric (c : Nat) : Bool :=
  [(0x30, 0x39),        -- ASCII digits
   (0x0966, 0x096F),    -- Devanagari digits
   (0x09E6, 0x09EF),    -- Bengali digits
   (0x0A66, 0x0A6F),    -- Gurmukhi digits
   (0x0AE6, 0x0AEF),    -- Gujarati digits
   (0x0B66, 0x0B6F),    -- Odia digits
   (0x0BE6, 0x0BF2),    -- Tamil digits and numbers
   (0x0C66, 0x0C6F),    -- Telugu digits
   (0x0CE6, 0x0CEF),    -- Kannada digits
   (0x0D66, 0x0D6F)     -- Malayalam digits
  ].any fun p => decide (p.1 ≤ c) && decide (c ≤ p.2)

/-- The first script of `SCRIPT_RANGES` (iterated in insertion order) whose
ranges contain the character — the `for script, ranges in ... break` loop
body of `ScriptUtils.get_script`. -/
def charScript (c : Nat) : Option Script :=
  scriptMembers.find? fun s => inRanges s c

/-- `script_counts[script]` at the end of `ScriptUtils.get_script`'s
counting loop: each character increments the count of the first script
whose ranges contain it. -/
def scriptCount (text : List Nat) (s : Script) : Nat :=
  (text.filter fun c => charScript c == some s).length

/-- `ScriptUtils.get_script`: dominant script of a text.
`max(script_counts.items(), key=lambda x: x[1])[0]` iterates the counts
dict in `Script`-definition order and keeps the first item, replacing it
only when a strictly larger count appears. -/
def get_script (text : List Nat) : Script :=
  [Script.tamil, .bengali, .telugu, .malayalam, .kannada, .latin, .iast].foldl
    (fun best s => if scriptCount text best < scriptCount text s then s else best)
    Script.devanagari

/-- `ScriptUtils.validate_script`: per-character loop with early `False`
returns, expressed as `List.all`.  Whitespace is skipped; a numeric
character is accepted iff numerals are allowed; a diacritic is accepted
iff diacritics are allowed; otherwise the character must lie in the
expected script's ranges. -/
def validate_script (text : List Nat) (expected : Script)
    (allow_numerals : Bool := true) (allow_diacritics : Bool := true) : Bool :=
  text.all fun c =>
    if isspace c then true
    else if isnumeric c then allow_numerals
    else if DIACRITICS.contains c then allow_diacritics
    else inRanges expected c

/-! ### `word_reconciliation.py` — data model.

`reconcile` receives a list of raw Python dicts.  The keys it reads are
modelled as `Option` fields (`none` = key absent); a `KeyError` on a
required key is modelled by `toWordEntry` returning `none`. -/

/-- The `context` dict of a raw entry as far as `reconcile` reads it: only
the `'source'` key is accessed (`entry['context']['source']`). -/
structure RawContext where
  source : Option String := none
  deriving DecidableEq, Repr

/-- A raw word dict handed to `WordReconciliation.reconcile`. -/
structure RawEntry where
  word : Option String := none
  sanskrit_word : Option String := none
  language : Option String := none
  confidence : Option ℚ := none
  source_url : Option String := none
  meanings : Option (List String) := none
  usage_examples : Option (List String) := none
  context : Option RawContext := none
  deriving DecidableEq, Repr

/-- The `WordEntry` dataclass (fields in source order; `context`,
`meanings` and `usage_examples` default to `None`). -/
structure WordEntry where
  word : String
  sanskrit_word : String
  language : String
  confidence : ℚ
  source_url : String
  source_name : String
  context : Option RawContext := none
  meanings : Option (List String) := none
  usage_examples : Option (List String) := none
  deriving DecidableEq, Repr

/-- The per-entry `try: WordEntry(...) except KeyError: continue` body of
`reconcile`: builds a `WordEntry` from a raw dict, `none` when any
required key (`word`, `sanskrit_word`, `language`, `confidence`,
`source_url`, `context`, `context['source']`) is missing.  `meanings`,
`usage_examples` and `context` are read with `.get` and may be absent. -/
def toWordEntry (e : RawEntry) : Option WordEntry := do
  let w ← e.word
  let sk ← e.sanskrit_word
  let lang ← e.language
  let conf ← e.confidence
  let url ← e.source_url
  let ctx ← e.context
  let src ← ctx.source
  some { word := w, sanskrit_word := sk, language := lang, confidence := conf,
         source_url := url, source_name := src, context := e.context,
         meanings := e.meanings, usage_examples := e.usage_examples }

/-- Grouping key used by `WordReconciliation._group_entries`:
`(entry.sanskrit_word, entry.word, entry.language)`. -/
def gkey (e : WordEntry) : String × String × String :=
  (e.sanskrit_word, e.word, e.language)

/-- One `defaultdict` update step: append the entry to the group of its
key, or append a fresh singleton group at the end when the key is new. -/
def addToGroups :
    List ((String × String × String) × List WordEntry) → WordEntry →
    List ((String × String × String) × List WordEntry)
  | [], e => [(gkey e, [e])]
  | (k, g) :: rest, e =>
      if k = gkey e then (k, g ++ [e]) :: rest
      else (k, g) :: addToGroups rest e

/-- `WordReconciliation._group_entries`: group entries by key; groups are
in key-first-occurrence order and each group keeps input order. -/
def group_entries (entries : List WordEntry) :
    List ((String × String × String) × List WordEntry) :=
  entries.foldl addToGroups []

/-- Python `max` over a nonempty list of rationals (the `[]` case models a
call that Python would reject with a `ValueError`; it is never reached). -/
def listMax : List ℚ → ℚ
  | [] => 0
  | [x] => x
  | x :: y :: xs => max x (listMax (y :: xs))

/-- `sum(entry.confidence for entry in entries)`. -/
def confSum (g : List WordEntry) : ℚ := (g.map (·.confidence)).sum

/-- `max(entry.confidence for entry in entries)`. -/
def maxConf (g : List WordEntry) : ℚ := listMax (g.map (·.confidence))

/-- `WordReconciliation._calculate_agreement_score`. -/
def calculate_agreement_score (g : List WordEntry) : ℚ :=
  if g.length ≤ 1 then 1
  else confSum g / ((g.length : ℚ) * maxConf g)

/-- The comparison of `entries.sort(key=lambda x: x.confidence,
reverse=True)`: descending confidence.  Python's `list.sort` is stable,
and the stable reordering determined by a comparison is unique; it is
modelled here by the stable insertion sort with this relation. -/
def confGE (a b : WordEntry) : Prop := b.confidence ≤ a.confidence

instance : DecidableRel confGE := fun a b =>
  inferInstanceAs (Decidable (b.confidence ≤ a.confidence))

instance : IsTotal WordEntry confGE :=
  ⟨fun a b => le_total b.confidence a.confidence⟩

instance : IsTrans WordEntry confGE :=
  ⟨fun _ _ _ h1 h2 => le_trans h2 h1⟩

/-- The `context` dict that `_merge_entries` builds for the merged entry. -/
structure MergeContext where
  agreement_score : ℚ
  source_count : Nat
  sources : List String
  deriving DecidableEq, Repr

/-- The merged `WordEntry` produced by `_merge_entries`.  Python collects
`meanings`/`usage_examples` into `set`s and materializes them with
`list(...)` in unspecified order, so they are modelled as `Finset`s. -/
structure MergedEntry where
  word : String
  sanskrit_word : String
  language : String
  confidence : ℚ
  source_url : String
  source_name : String
  meanings : Option (Finset String)
  usage_examples : Option (Finset String)
  context : MergeContext
  deriving DecidableEq

/-- `all_meanings.update(entry.meanings)` under `if entry.meanings:`
(Python truthiness: `None` and the empty list are both falsy). -/
def unionMeanings (acc : Finset String) (e : WordEntry) : Finset String :=
  match e.meanings with
  | some ms => if ms.isEmpty then acc else acc ∪ ms.toFinset
  | none => acc

/-- `all_examples.update(entry.usage_examples)` under
`if entry.usage_examples:`. -/
def unionExamples (acc : Finset String) (e : WordEntry) : Finset String :=
  match e.usage_examples with
  | some xs => if xs.isEmpty then acc else acc ∪ xs.toFinset
  | none => acc

/-- The body of `WordReconciliation._merge_entries` after the in-place
`entries.sort(key=lambda x: x.confidence, reverse=True)`: `primary =
entries[0]` and every subsequent read is from the sorted list
`primary :: rest`. -/
def mergeSorted (primary : WordEntry) (rest : List WordEntry) : MergedEntry :=
  let entries := primary :: rest
  let all_meanings := entries.foldl unionMeanings ∅
  let all_examples := entries.foldl unionExamples ∅
  let agreement := calculate_agreement_score entries
  let combined :=
    min 1 (primary.confidence *
      (1 + (1 / 10 : ℚ) * agreement * ((entries.length : ℚ) - 1)))
  { word := primary.word
    sanskrit_word := primary.sanskrit_word
    language := primary.language
    confidence := combined
    source_url := primary.source_url
    source_name :=
      primary.source_name ++ " + " ++ toString (entries.length - 1) ++ " more"
    meanings := if all_meanings = ∅ then none else some all_meanings
    usage_examples := if all_examples = ∅ then none else some all_examples
    context := { agreement_score := agreement
                 source_count := entries.length
                 sources := entries.map (·.source_name) } }

/-- `WordReconciliation._merge_entries`, after the in-place sort: `none`
on the empty list models the `IndexError` Python would raise there
(`reconcile` only calls this on nonempty lists). -/
def merge_entries (g : List WordEntry) : Option MergedEntry :=
  match List.insertionSort confGE g with
  | [] => none
  | primary :: rest => some (mergeSorted primary rest)

/-- The output dict appended by `reconcile` for each merged entry; it has
exactly the keys `word`, `sanskrit_word`, `language`, `confidence`,
`source_url`, `meanings`, `usage_examples`, `context` (no `source_name`). -/
structure ReconciledRecord where
  word : String
  sanskrit_word : String
  language : String
  confidence : ℚ
  source_url : String
  meanings : Option (Finset String)
  usage_examples : Option (Finset String)
  context : MergeContext
  deriving DecidableEq

/-- Projection of a merged entry to the output dict of `reconcile`. -/
def toRecord (m : MergedEntry) : ReconciledRecord :=
  { word := m.word, sanskrit_word := m.sanskrit_word, language := m.language,
    confidence := m.confidence, source_url := m.source_url,
    meanings := m.meanings, usage_examples := m.usage_examples,
    context := m.context }

/-- The grouping key of an output record. -/
def recKey (r : ReconciledRecord) : String × String × String :=
  (r.sanskrit_word, r.word, r.language)

/-- The default `confidence_threshold` of `WordReconciliation.__init__`. -/
def defaultThreshold : ℚ := mkRat 7 10

/-- The per-group body of `reconcile`'s final loop: drop entries below
the threshold (`reliable_entries`), and merge if any survive. -/
def procGroup (threshold : ℚ) (g : List WordEntry) : Option ReconciledRecord :=
  let reliable := g.filter fun e => decide (threshold ≤ e.confidence)
  if reliable.isEmpty then none
  else (merge_entries reliable).map toRecord

/-- The grouping/filter/merge phase of `WordReconciliation.reconcile`,
starting from already-converted `WordEntry` values. -/
def reconcileEntries (threshold : ℚ) (ws : List WordEntry) :
    List ReconciledRecord :=
  (group_entries ws).filterMap fun kg => procGroup threshold kg.2

/-- `WordReconciliation.reconcile`: convert raw dicts (skipping malformed
ones), then group, filter and merge. -/
def reconcile (threshold : ℚ) (entries : List RawEntry) : List ReconciledRecord :=
  reconcileEntries threshold (entries.filterMap toWordEntry)

/-- First-match lookup of a key's group in a grouping association list
(proof device for reasoning about `group_entries`). -/
def findGroup (k : String × String × String)
    (gs : List ((String × String × String) × List WordEntry)) :
    List WordEntry :=
  match gs.find? fun kg => decide (kg.1 = k) with
  | some kg => kg.2
  | none => []

/-- The keys of a grouping association list, in order. -/
def keysOf (gs : List ((String × String × String) × List WordEntry)) :
    List (String × String × String) :=
  gs.map Prod.fst

/-! ### `data_collection.py` — confidence adjuster and collector. -/

/-- The `context` dict of a scraped word as far as `_adjust_confidence`
reads it: only `context.get('collection')`. -/
structure CollectContext where
  collection : Option String := none
  deriving DecidableEq, Repr

/-- A scraped word dict as consumed by `DataCollector._adjust_confidence`:
the keys it reads are `confidence`, `language`, `word`, `sanskrit_word`
and (optionally) `context`. -/
structure WordInfo where
  word : String
  sanskrit_word : String
  language : String
  source_url : String
  confidence : ℚ
  context : Option CollectContext := none
  deriving DecidableEq, Repr

/-- Code points of a Lean string, for feeding Python-level strings to the
script validator. -/
def codes (s : String) : List Nat := s.data.map Char.toNat

/-- `DataCollector._adjust_confidence`.  The body first builds the
`script_map` dict literal, which evaluates each `Script.<NAME>` attribute
access in source order; `Script.GURMUKHI` (then `GUJARATI`, `ODIA`) is not
a member of the `Script` enum, so the access raises `AttributeError`
(modelled as `Except.error`) before any confidence arithmetic happens. -/
def adjust_confidence (w : WordInfo) (scraper_weight : ℚ) :
    Except String WordInfo := do
  let base := w.confidence
  let tam ← match scriptAttr "TAMIL" with
    | some s => Except.ok s | none => Except.error "AttributeError: TAMIL"
  let tel ← match scriptAttr "TELUGU" with
    | some s => Except.ok s | none => Except.error "AttributeError: TELUGU"
  let kan ← match scriptAttr "KANNADA" with
    | some s => Except.ok s | none => Except.error "AttributeError: KANNADA"
  let mal ← match scriptAttr "MALAYALAM" with
    | some s => Except.ok s | none => Except.error "AttributeError: MALAYALAM"
  let ben ← match scriptAttr "BENGALI" with
    | some s => Except.ok s | none => Except.error "AttributeError: BENGALI"
  let dev ← match scriptAttr "DEVANAGARI" with
    | some s => Except.ok s | none => Except.error "AttributeError: DEVANAGARI"
  let gur ← match scriptAttr "GURMUKHI" with
    | some s => Except.ok s | none => Except.error "AttributeError: GURMUKHI"
  let guj ← match scriptAttr "GUJARATI" with
    | some s => Except.ok s | none => Except.error "AttributeError: GUJARATI"
  let odi ← match scriptAttr "ODIA" with
    | some s => Except.ok s | none => Except.error "AttributeError: ODIA"
  let script_map : List (String × Script) :=
    [("tamil", tam), ("telugu", tel), ("kannada", kan), ("malayalam", mal),
     ("bengali", ben), ("hindi", dev), ("punjabi", gur), ("gujarati", guj),
     ("odia", odi)]
  let validation : ℚ :=
    match script_map.lookup w.language with
    | some sc =>
        (if validate_script (codes w.word) sc true true then 1
         else (8 / 10 : ℚ)) *
        (if validate_script (codes w.sanskrit_word) .devanagari true true then 1
         else (8 / 10 : ℚ))
    | none => 1
  let validation : ℚ :=
    match w.context with
    | some ctx =>
        if ctx.collection = some "bhagavad_gita" ∨ ctx.collection = some "upanishads"
        then validation * (11 / 10) else validation
    | none => validation
  Except.ok { w with confidence := min 1 (base * scraper_weight * validation) }

/-- `WiktionaryScraper.SUPPORTED_LANGUAGES.keys()`, in insertion order. -/
def wiktionaryLanguages : List String :=
  ["tamil", "hindi", "bengali", "telugu", "malayalam", "kannada",
   "gujarati", "punjabi", "odia"]

/-- `DataCollector.SCRAPERS`: source id → (weight, does the scraper class
constructor accept this language without raising `ValueError`).  The
Wiktionary scraper rejects languages outside its supported set; the
Punjabi / Gujarati / Odia dictionary scrapers accept exactly one language;
the Sanskrit-Dictionary, Wikisource and DDSA scrapers accept any
language.  An id outside the dict raises `KeyError` (`none` here). -/
def scraperTable (sid : String) : Option (ℚ × (String → Bool)) :=
  if sid = "wiktionary" then some (7 / 10, fun lang => wiktionaryLanguages.contains lang)
  else if sid = "sanskrit_dict" then some (8 / 10, fun _ => true)
  else if sid = "wikisource" then some (9 / 10, fun _ => true)
  else if sid = "ddsa" then some (85 / 100, fun _ => true)
  else if sid = "punjabi_dict" then some (85 / 100, fun lang => lang = "punjabi")
  else if sid = "gujarati_dict" then some (85 / 100, fun lang => lang = "gujarati")
  else if sid = "odia_dict" then some (85 / 100, fun lang => lang = "odia")
  else none

/-- `list(DataCollector.SCRAPERS.keys())`, in insertion order. -/
def allScraperIds : List String :=
  ["wiktionary", "sanskrit_dict", "wikisource", "ddsa", "punjabi_dict",
   "gujarati_dict", "odia_dict"]

/-- The (id, language, weight) triple the construction loop appends for a
given (language, source id) pair, `none` when the scraper class rejects
the language with `ValueError`. -/
def pairFor (lang sid : String) : Option (String × String × ℚ) :=
  (scraperTable sid).bind fun info =>
    if info.2 lang then some (sid, lang, info.1) else none

/-- The adapter-construction loop of `DataCollector.__init__`.  For each
(language, source id) pair: `self.SCRAPERS[scraper_id]` raises `KeyError`
for an unknown id — this is *not* caught by the `except ValueError`
handler, so it aborts construction (`Except.error`); a `ValueError` from
the scraper class constructor (unsupported language) *is* caught, logged
and the pair skipped.  Successful pairs accumulate `(id, language,
weight)` in loop order. -/
def constructPair (lang : String) (acc2 : List (String × String × ℚ))
    (sid : String) : Except String (List (String × String × ℚ)) :=
  match scraperTable sid with
  | none => Except.error ("KeyError: " ++ sid)
  | some info =>
      if info.2 lang then Except.ok (acc2 ++ [(sid, lang, info.1)])
      else Except.ok acc2

def initScraperPairs (languages active : List String) :
    Except String (List (String × String × ℚ)) :=
  languages.foldlM (fun acc lang => active.foldlM (constructPair lang) acc) []

/-- One adapter's run in `DataCollector.collect_and_store`, as data: the
entries its `scrape_words` extracted from successfully fetched pages, and
whether a transient fetch error occurred mid-run.  `BaseScraper.get_page`
catches every fetch exception and returns `None`, and the scrape loops
skip `None` pages, so a fetch error never propagates out of
`scrape_words`. -/
structure ScraperRun where
  extracted : List WordInfo
  fetch_failed : Bool
  deriving DecidableEq, Repr

/-- `scrape_words` of a run: the extracted entries (partial results are
returned even when a transient fetch error occurred). -/
def scrape_words_of (r : ScraperRun) : List WordInfo := r.extracted

/-- Observable state of the `collect_and_store` loop: the accumulated
`all_words` list handed to the Reconciler, how many scrapers had
`cleanup()` invoked, and how many per-scraper exceptions were logged. -/
structure CollectState where
  all_words : List WordInfo
  cleanups : Nat
  errors_logged : Nat
  deriving DecidableEq, Repr

/-- One iteration of the `for scraper, weight in self.scrapers` loop of
`collect_and_store` (with `cache_dir=None`): scrape, adjust every word's
confidence, extend `all_words`; any exception is caught and logged and the
scraper's words are dropped; `cleanup()` runs in the `finally` block
either way. -/
def collectOne (st : CollectState) (rw : ScraperRun × ℚ) : CollectState :=
  match (scrape_words_of rw.1).mapM (fun w => adjust_confidence w rw.2) with
  | Except.ok ws =>
      { st with all_words := st.all_words ++ ws, cleanups := st.cleanups + 1 }
  | Except.error _ =>
      { st with errors_logged := st.errors_logged + 1, cleanups := st.cleanups + 1 }

/-- The whole scraping loop of `collect_and_store`. -/
def collectAll (runs : List (ScraperRun × ℚ)) : CollectState :=
  runs.foldl collectOne ⟨[], 0, 0⟩

/-- The candidate list `collect_and_store` passes to
`WordReconciliation().reconcile`. -/
def reconcilerInput (runs : List (ScraperRun × ℚ)) : List WordInfo :=
  (collectAll runs).all_words

/-! ### The conformance predicate as the specification words it.

Written from the specification text (`conforms(text, expectedKind,
allowDigits, allowDiacritics)`): every non-whitespace character must
*either* be numeric (if allowed), *or* a recognized diacritical mark (if
allowed), *or* fall inside the expected kind's Unicode ranges.  This is
the disjunctive reading of the claim, kept separate from the source-level
`validate_script` so the two can be compared. -/
def conformsSpec (text : List Nat) (expected : Script)
    (allow_numerals allow_diacritics : Bool) : Bool :=
  text.all fun c =>
    isspace c || (isnumeric c && allow_numerals) ||
    (DIACRITICS.contains c && allow_diacritics) || inRanges expected c

/-! ### Sample inputs used by witnesses and counterexamples. -/

/-- A scraped Hindi word dict (well-formed, confidence 0.8). -/
def hWord1 : WordInfo :=
  { word := "योग", sanskrit_word := "योग", language := "hindi",
    source_url := "https://hi.wiktionary.org/wiki/y1", confidence := 8 / 10 }

/-- A second scraped Hindi word dict. -/
def hWord2 : WordInfo :=
  { word := "नदी", sanskrit_word := "नदी", language := "hindi",
    source_url := "https://hi.wiktionary.org/wiki/y2", confidence := 8 / 10 }

/-- A third scraped Hindi word dict. -/
def hWord3 : WordInfo :=
  { word := "कर्म", sanskrit_word := "कर्मन्", language := "hindi",
    source_url := "https://hi.wiktionary.org/wiki/y3", confidence := 8 / 10 }

/-- An adapter run that extracted three valid entries before a transient
fetch error occurred (the error is caught inside `get_page`, so
`scrape_words` still returns the three entries). -/
def partialRun : ScraperRun :=
  { extracted := [hWord1, hWord2, hWord3], fetch_failed := true }

/-- A raw Tamil candidate from source "A" (well-formed, confidence 1). -/
def rawA : RawEntry :=
  { word := some "மனம்", sanskrit_word := some "मनस्",
    language := some "tamil", confidence := some 1,
    source_url := some "https://a.example/1",
    context := some { source := some "A" } }

/-- A raw candidate from source "B" with the same (root, word, language)
key and the *same* confidence as `rawA`, but a different source URL. -/
def rawB : RawEntry :=
  { word := some "மனம்", sanskrit_word := some "मनस्",
    language := some "tamil", confidence := some 1,
    source_url := some "https://b.example/2",
    context := some { source := some "B" } }

/-- A raw candidate from source "C" with the same key as `rawA` but a
strictly smaller confidence. -/
def rawC : RawEntry :=
  { word := some "மனம்", sanskrit_word := some "मनस्",
    language := some "tamil", confidence := some 0,
    source_url := some "https://c.example/3",
    context := some { source := some "C" } }

/-- A raw candidate with no `confidence` key (malformed: conversion to a
`WordEntry` raises `KeyError`). -/
def rawBad : RawEntry :=
  { word := some "शब्द", sanskrit_word := some "शब्द",
    language := some "hindi", source_url := some "https://bad.example",
    context := some { source := some "Bad" } }

/-- The converted form of `rawA`. -/
def entA : WordEntry :=
  { word := "மனம்", sanskrit_word := "मनस्", language := "tamil",
    confidence := 1, source_url := "https://a.example/1",
    source_name := "A", context := some { source := some "A" } }

/-- A below-threshold entry with a different grouping key. -/
def entLow : WordEntry :=
  { word := "क्षर", sanskrit_word := "क्षर", language := "hindi",
    confidence := 0, source_url := "https://low.example",
    source_name := "L" }

/-! ## Supporting lemmas -/

/-- Every element of a list is at most its Python `max`. -/
theorem le_listMax : ∀ (l : List ℚ), ∀ x ∈ l, x ≤ listMax l := by
  intro l
  induction l with
  | nil => intro x hx; cases hx
  | cons a t ih =>
    intro x hx
    match t, hx with
    | [], hx =>
        rcases List.mem_singleton.mp hx with rfl
        exact le_refl _
    | b :: ts, hx =>
        rcases List.mem_cons.mp hx with rfl | hx
        · exact le_max_left _ _
        · exact le_trans (ih x hx) (le_max_right _ _)

/-- The Python `max` of a nonempty list is one of its elements. -/
theorem listMax_mem : ∀ (l : List ℚ), l ≠ [] → listMax l ∈ l := by
  intro l
  induction l with
  | nil => intro h; exact absurd rfl h
  | cons a t ih =>
    intro _
    match t with
    | [] => exact List.mem_singleton.mpr rfl
    | b :: ts =>
        rcases le_total (listMax (b :: ts)) a with h | h
        · rw [show listMax (a :: b :: ts) = max a (listMax (b :: ts)) from rfl,
              max_eq_left h]
          exact List.mem_cons_self a _
        · rw [show listMax (a :: b :: ts) = max a (listMax (b :: ts)) from rfl,
              max_eq_right h]
          exact List.mem_cons_of_mem a (ih (by simp))

/-- Python `max` is invariant under permutation. -/
theorem listMax_perm {l1 l2 : List ℚ} (hp : l1.Perm l2) :
    listMax l1 = listMax l2 := by
  cases l1 with
  | nil =>
      have h2 : l2 = [] := hp.symm.eq_nil
      rw [h2]
  | cons a t =>
      have h1 : a :: t ≠ [] := by simp
      have h2 : l2 ≠ [] := by
        intro h
        rw [h] at hp
        exact absurd hp.eq_nil (by simp)
      exact le_antisymm
        (le_listMax l2 _ (hp.mem_iff.mp (listMax_mem _ h1)))
        (le_listMax (a :: t) _ (hp.mem_iff.mpr (listMax_mem _ h2)))

/-- `confSum` is invariant under permutation. -/
theorem confSum_perm {g1 g2 : List WordEntry} (hp : g1.Perm g2) :
    confSum g1 = confSum g2 := by
  unfold confSum
  exact (hp.map (·.confidence)).sum_eq

/-- `maxConf` is invariant under permutation. -/
theorem maxConf_perm {g1 g2 : List WordEntry} (hp : g1.Perm g2) :
    maxConf g1 = maxConf g2 :=
  listMax_perm (hp.map (·.confidence))

/-- The agreement score is invariant under permutation of the group. -/
theorem agreement_perm {g1 g2 : List WordEntry} (hp : g1.Perm g2) :
    calculate_agreement_score g1 = calculate_agreement_score g2 := by
  unfold calculate_agreement_score
  rw [hp.length_eq, confSum_perm hp, maxConf_perm hp]

/-- Sorting a nonempty group by descending confidence yields a head that
belongs to the group and dominates every member's confidence. -/
theorem insertionSort_head_spec (g : List WordEntry) (hg : g ≠ []) :
    ∃ p rest, List.insertionSort confGE g = p :: rest ∧ (p :: rest).Perm g ∧
      p ∈ g ∧ ∀ e ∈ g, e.confidence ≤ p.confidence := by
  have hperm := List.perm_insertionSort confGE g
  have hsorted := List.sorted_insertionSort confGE g
  match hs : List.insertionSort confGE g with
  | [] =>
      rw [hs] at hperm
      exact absurd hperm.symm.eq_nil hg
  | p :: rest =>
      rw [hs] at hperm hsorted
      refine ⟨p, rest, rfl, hperm, hperm.subset (List.mem_cons_self p rest), ?_⟩
      intro e he
      rcases List.mem_cons.mp (hperm.mem_iff.mpr he) with rfl | hmem
      · exact le_refl _
      · exact (List.pairwise_cons.mp hsorted).1 e hmem

/-- Characterization of `_merge_entries` on a nonempty group: the merged
entry exists, its identifying fields and source URL come from a
highest-confidence member, its source count is the group size, and its
confidence follows the combined-confidence formula and never exceeds 1. -/
theorem merge_entries_spec (g : List WordEntry) (hg : g ≠ []) :
    ∃ p m, merge_entries g = some m ∧ p ∈ g ∧
      (∀ e ∈ g, e.confidence ≤ p.confidence) ∧
      m.word = p.word ∧ m.sanskrit_word = p.sanskrit_word ∧
      m.language = p.language ∧ m.source_url = p.source_url ∧
      m.context.source_count = g.length ∧
      m.confidence = min 1 (p.confidence *
        (1 + (1 / 10 : ℚ) * calculate_agreement_score g * ((g.length : ℚ) - 1))) ∧
      m.confidence ≤ 1 := by
  obtain ⟨p, rest, hsort, hperm, hpg, hmax⟩ := insertionSort_head_spec g hg
  have hm : merge_entries g = some (mergeSorted p rest) := by
    unfold merge_entries
    rw [hsort]
  refine ⟨p, mergeSorted p rest, hm, hpg, hmax, rfl, rfl, rfl, rfl, ?_, ?_, ?_⟩
  · simpa [mergeSorted] using hperm.length_eq
  · simp only [mergeSorted]
    rw [agreement_perm hperm, hperm.length_eq]
  · exact min_le_left _ _

/-- The inner construction loop over source ids, for one language:
when every id is known, it never raises and appends exactly the supported
pairs in order. -/
theorem foldlM_constructPair (lang : String) :
    ∀ (active : List String) (acc : List (String × String × ℚ)),
      (∀ sid ∈ active, (scraperTable sid).isSome) →
      active.foldlM (constructPair lang) acc =
        Except.ok (acc ++ active.filterMap (pairFor lang)) := by
  intro active
  induction active with
  | nil => intro acc _; simp; rfl
  | cons sid rest ih =>
    intro acc h
    obtain ⟨info, hinfo⟩ :=
      Option.isSome_iff_exists.mp (h sid (List.mem_cons_self sid rest))
    have hrest : ∀ s ∈ rest, (scraperTable s).isSome := fun s hs =>
      h s (List.mem_cons_of_mem sid hs)
    rw [List.foldlM_cons]
    by_cases hl : info.2 lang = true
    · have hstep : constructPair lang acc sid = Except.ok (acc ++ [(sid, lang, info.1)]) := by
        simp [constructPair, hinfo, hl]
      rw [hstep]
      show rest.foldlM (constructPair lang) (acc ++ [(sid, lang, info.1)]) = _
      rw [ih (acc ++ [(sid, lang, info.1)]) hrest]
      simp [pairFor, hinfo, hl]
    · have hstep : constructPair lang acc sid = Except.ok acc := by
        simp [constructPair, hinfo, hl]
      rw [hstep]
      show rest.foldlM (constructPair lang) acc = _
      rw [ih acc hrest]
      simp [pairFor, hinfo, hl]

/-- `addToGroups` on the empty grouping starts a singleton group. -/
theorem addToGroups_nil (e : WordEntry) :
    addToGroups [] e = [(gkey e, [e])] := rfl

/-- `addToGroups` appends to the head group when the key matches. -/
theorem addToGroups_cons_eq (k1 : String × String × String)
    (g1 : List WordEntry)
    (rest : List ((String × String × String) × List WordEntry))
    (e : WordEntry) (h : k1 = gkey e) :
    addToGroups ((k1, g1) :: rest) e = (k1, g1 ++ [e]) :: rest := by
  simp [addToGroups, h]

/-- `addToGroups` passes over a head group with a different key. -/
theorem addToGroups_cons_ne (k1 : String × String × String)
    (g1 : List WordEntry)
    (rest : List ((String × String × String) × List WordEntry))
    (e : WordEntry) (h : ¬k1 = gkey e) :
    addToGroups ((k1, g1) :: rest) e = (k1, g1) :: addToGroups rest e := by
  simp [addToGroups, h]

/-- `findGroup` on the empty grouping. -/
theorem findGroup_nil (k : String × String × String) :
    findGroup k [] = [] := rfl

/-- `findGroup` hits a head group with the right key. -/
theorem findGroup_cons_self (k : String × String × String)
    (g : List WordEntry)
    (rest : List ((String × String × String) × List WordEntry)) :
    findGroup k ((k, g) :: rest) = g := by
  unfold findGroup
  rw [List.find?_cons_of_pos _ (by simp)]

/-- `findGroup` skips a head group with a different key. -/
theorem findGroup_cons_ne (k k1 : String × String × String)
    (g : List WordEntry)
    (rest : List ((String × String × String) × List WordEntry))
    (h : ¬k1 = k) :
    findGroup k ((k1, g) :: rest) = findGroup k rest := by
  unfold findGroup
  rw [List.find?_cons_of_neg _ (by simp [h])]

/-- `findGroup` after one `addToGroups` step: the entry lands at the end
of its key's group, other groups are untouched. -/
theorem findGroup_addToGroups
    (gs : List ((String × String × String) × List WordEntry))
    (e : WordEntry) (k : String × String × String) :
    findGroup k (addToGroups gs e) =
      if gkey e = k then findGroup k gs ++ [e] else findGroup k gs := by
  induction gs with
  | nil =>
      rw [addToGroups_nil]
      by_cases h : gkey e = k
      · rw [if_pos h, h, findGroup_cons_self, findGroup_nil, List.nil_append]
      · rw [if_neg h, findGroup_cons_ne _ _ _ _ h]
  | cons kg rest ih =>
      obtain ⟨k1, g1⟩ := kg
      by_cases hk1 : k1 = gkey e
      · subst hk1
        rw [addToGroups_cons_eq _ _ _ _ rfl]
        by_cases hk2 : gkey e = k
        · rw [if_pos hk2, hk2, findGroup_cons_self, findGroup_cons_self]
        · rw [if_neg hk2, findGroup_cons_ne _ _ _ _ hk2,
              findGroup_cons_ne _ _ _ _ hk2]
      · rw [addToGroups_cons_ne _ _ _ _ hk1]
        by_cases hk2 : k1 = k
        · rw [if_neg (fun h => hk1 (hk2.trans h.symm)), hk2,
              findGroup_cons_self, findGroup_cons_self]
        · rw [findGroup_cons_ne _ _ _ _ hk2, findGroup_cons_ne _ _ _ _ hk2, ih]

/-- `findGroup` over the grouping fold: a key's group is the prior group
plus the matching entries, in input order. -/
theorem findGroup_foldl (k : String × String × String) :
    ∀ (l : List WordEntry)
      (gs : List ((String × String × String) × List WordEntry)),
      findGroup k (l.foldl addToGroups gs) =
        findGroup k gs ++ l.filter fun e => decide (gkey e = k) := by
  intro l
  induction l with
  | nil => intro gs; simp
  | cons e t ih =>
      intro gs
      rw [List.foldl_cons, ih, findGroup_addToGroups]
      by_cases h : gkey e = k
      · simp [h, List.filter_cons]
      · simp [h, List.filter_cons]

/-- Each group of `group_entries` collects exactly the entries with its
key, in input order. -/
theorem findGroup_group_entries (l : List WordEntry)
    (k : String × String × String) :
    findGroup k (group_entries l) = l.filter fun e => decide (gkey e = k) := by
  unfold group_entries
  rw [findGroup_foldl]
  simp [findGroup]

/-- Key membership after one `addToGroups` step. -/
theorem mem_keysOf_addToGroups
    (gs : List ((String × String × String) × List WordEntry))
    (e : WordEntry) (k : String × String × String) :
    k ∈ keysOf (addToGroups gs e) ↔ k ∈ keysOf gs ∨ k = gkey e := by
  induction gs with
  | nil => simp [addToGroups_nil, keysOf]
  | cons kg rest ih =>
      obtain ⟨k1, g1⟩ := kg
      by_cases h : k1 = gkey e
      · rw [addToGroups_cons_eq _ _ _ _ h]
        subst h
        simp only [keysOf, List.map_cons, List.mem_cons]
        tauto
      · rw [addToGroups_cons_ne _ _ _ _ h]
        simp only [keysOf, List.map_cons, List.mem_cons] at ih ⊢
        rw [ih]
        tauto

/-- `addToGroups` keeps the keys without duplicates. -/
theorem nodup_keysOf_addToGroups
    (gs : List ((String × String × String) × List WordEntry))
    (e : WordEntry) (h : (keysOf gs).Nodup) :
    (keysOf (addToGroups gs e)).Nodup := by
  induction gs with
  | nil => simp [addToGroups, keysOf]
  | cons kg rest ih =>
      obtain ⟨k1, g1⟩ := kg
      rw [keysOf, List.map_cons, List.nodup_cons] at h
      obtain ⟨hk, hrest⟩ := h
      by_cases he : k1 = gkey e
      · rw [addToGroups_cons_eq _ _ _ _ he, keysOf, List.map_cons,
            List.nodup_cons]
        exact ⟨hk, hrest⟩
      · rw [addToGroups_cons_ne _ _ _ _ he, keysOf, List.map_cons,
            List.nodup_cons]
        refine ⟨?_, ih hrest⟩
        intro hcon
        rcases (mem_keysOf_addToGroups rest e k1).mp hcon with h1 | h1
        · exact hk h1
        · exact he h1

/-- The grouping produced by `group_entries` has pairwise-distinct keys. -/
theorem nodup_keysOf_group_entries (l : List WordEntry) :
    (keysOf (group_entries l)).Nodup := by
  unfold group_entries
  suffices h : ∀ (ws : List WordEntry)
      (gs : List ((String × String × String) × List WordEntry)),
      (keysOf gs).Nodup → (keysOf (ws.foldl addToGroups gs)).Nodup by
    exact h l [] (by simp [keysOf])
  intro ws
  induction ws with
  | nil => intro gs h; simpa using h
  | cons e t ih =>
      intro gs h
      rw [List.foldl_cons]
      exact ih _ (nodup_keysOf_addToGroups gs e h)

/-- Key membership over the grouping fold. -/
theorem mem_keysOf_foldl (k : String × String × String) :
    ∀ (l : List WordEntry)
      (gs : List ((String × String × String) × List WordEntry)),
      k ∈ keysOf (l.foldl addToGroups gs) ↔
        k ∈ keysOf gs ∨ ∃ e ∈ l, gkey e = k := by
  intro l
  induction l with
  | nil => intro gs; simp
  | cons e t ih =>
      intro gs
      rw [List.foldl_cons, ih, mem_keysOf_addToGroups]
      simp only [List.mem_cons]
      constructor
      · rintro ((h | h) | ⟨x, hx, hgx⟩)
        · exact Or.inl h
        · exact Or.inr ⟨e, Or.inl rfl, h.symm⟩
        · exact Or.inr ⟨x, Or.inr hx, hgx⟩
      · rintro (h | ⟨x, (rfl | hx), hgx⟩)
        · exact Or.inl (Or.inl h)
        · exact Or.inl (Or.inr hgx.symm)
        · exact Or.inr ⟨x, hx, hgx⟩

/-- A key occurs in `group_entries l` iff some entry of `l` carries it. -/
theorem mem_keysOf_group_entries (l : List WordEntry)
    (k : String × String × String) :
    k ∈ keysOf (group_entries l) ↔ ∃ e ∈ l, gkey e = k := by
  unfold group_entries
  rw [mem_keysOf_foldl]
  simp [keysOf]

/-- With pairwise-distinct keys, a member's group is `findGroup` at its
key. -/
theorem snd_eq_findGroup :
    ∀ (gs : List ((String × String × String) × List WordEntry)),
      (keysOf gs).Nodup → ∀ kg ∈ gs, kg.2 = findGroup kg.1 gs := by
  intro gs
  induction gs with
  | nil => intro _ kg h; cases h
  | cons hd rest ih =>
      intro hnd kg hmem
      obtain ⟨k1, g1⟩ := hd
      rcases List.mem_cons.mp hmem with rfl | hmem
      · exact (findGroup_cons_self _ _ _).symm
      · have h1 : kg.1 ∈ keysOf rest := List.mem_map_of_mem Prod.fst hmem
        rw [keysOf, List.map_cons, List.nodup_cons] at hnd
        obtain ⟨hne, hnd2⟩ := hnd
        have hne2 : ¬k1 = kg.1 := by
          intro hcon
          rw [hcon] at hne
          exact hne h1
        rw [findGroup_cons_ne _ _ _ _ hne2]
        exact ih hnd2 kg hmem

/-- Soundness of `group_entries`: every emitted group is exactly the
input's sublist with that key. -/
theorem group_entries_sound (l : List WordEntry) :
    ∀ kg ∈ group_entries l, kg.2 = l.filter fun e => decide (gkey e = kg.1) := by
  intro kg hkg
  rw [snd_eq_findGroup (group_entries l) (nodup_keysOf_group_entries l) kg hkg]
  exact findGroup_group_entries l kg.1

/-- `reconcile`'s final loop, re-expressed over the (distinct) keys: each
key contributes the processed group of exactly its entries. -/
theorem reconcileEntries_eq_keys (θ : ℚ) (ws : List WordEntry) :
    reconcileEntries θ ws =
      (keysOf (group_entries ws)).filterMap fun k =>
        procGroup θ (ws.filter fun e => decide (gkey e = k)) := by
  unfold reconcileEntries keysOf
  rw [List.filterMap_map]
  apply List.filterMap_congr
  intro kg hkg
  simp only [Function.comp]
  rw [← group_entries_sound ws kg hkg]

/-- Unfolding a successful `procGroup`: the record is the merge of the
above-threshold sublist, whose primary supplies key and source URL. -/
theorem procGroup_some {θ : ℚ} {g : List WordEntry} {r : ReconciledRecord}
    (h : procGroup θ g = some r) :
    ∃ p ∈ g.filter fun e => decide (θ ≤ e.confidence),
      recKey r = gkey p ∧ r.source_url = p.source_url ∧ r.confidence ≤ 1 ∧
      r.context.source_count =
        (g.filter fun e => decide (θ ≤ e.confidence)).length ∧
      (merge_entries (g.filter fun e => decide (θ ≤ e.confidence))).map toRecord
        = some r := by
  unfold procGroup at h
  simp only at h
  by_cases hemp : (g.filter fun e => decide (θ ≤ e.confidence)).isEmpty
  · rw [if_pos hemp] at h; cases h
  · rw [if_neg hemp] at h
    have hne : (g.filter fun e => decide (θ ≤ e.confidence)) ≠ [] := by
      intro hcon
      rw [hcon] at hemp
      exact hemp rfl
    obtain ⟨p, m, hm, hpg, _, hw, hsk, hlang, hurl, hcount, _, hle⟩ :=
      merge_entries_spec _ hne
    rw [hm, Option.map_some'] at h
    have hr : r = toRecord m := (Option.some.inj h).symm
    subst hr
    refine ⟨p, hpg, ?_, hurl, hle, ?_, ?_⟩
    · simp [recKey, toRecord, hw, hsk, hlang, gkey]
    · simpa [toRecord] using hcount
    · rw [hm, Option.map_some']

/-- Every record of `reconcileEntries` is the processed group of its own
key. -/
theorem mem_reconcileEntries {θ : ℚ} {ws : List WordEntry}
    {r : ReconciledRecord} (hr : r ∈ reconcileEntries θ ws) :
    procGroup θ (ws.filter fun e => decide (gkey e = recKey r)) = some r := by
  rw [reconcileEntries_eq_keys] at hr
  obtain ⟨k, _, hpk⟩ := List.mem_filterMap.mp hr
  obtain ⟨p, hpg, hkey, _⟩ := procGroup_some hpk
  have hp2 := List.mem_filter.mp hpg
  have hp3 := List.mem_filter.mp hp2.1
  have hgk : gkey p = k := by simpa using hp3.2
  rw [show recKey r = k from hgk ▸ hkey]
  exact hpk

/-- Evaluation: at threshold 0.7 the group of `entLow` is dropped and the
group of `entA` merges to a single record. -/
theorem reconcileEntries_eval_sample :
    reconcileEntries (mkRat 7 10) [entLow, entA] =
      [toRecord (mergeSorted entA [])] := rfl

/-- Evaluation: `reconcile` on the single raw candidate `rawA`. -/
theorem reconcile_eval_sample :
    reconcile (mkRat 7 10) [rawA] = [toRecord (mergeSorted entA [])] := rfl

/-- Two descending-sorted permutations of each other coincide when equal
confidences only occur between equal entries. -/
theorem sorted_desc_eq : ∀ {l1 l2 : List WordEntry}, l1.Perm l2 →
    l1.Pairwise confGE → l2.Pairwise confGE →
    (∀ a ∈ l1, ∀ b ∈ l1, a.confidence = b.confidence → a = b) →
    l1 = l2 := by
  intro l1
  induction l1 with
  | nil =>
      intro l2 hp _ _ _
      exact hp.symm.eq_nil.symm
  | cons a t1 ih =>
      intro l2 hp hs1 hs2 hinj
      cases l2 with
      | nil => exact absurd hp.eq_nil (by simp)
      | cons b t2 =>
          have hamem : a ∈ b :: t2 := hp.subset (List.mem_cons_self a t1)
          have hbmem : b ∈ a :: t1 := hp.symm.subset (List.mem_cons_self b t2)
          have h1 := List.pairwise_cons.mp hs1
          have h2 := List.pairwise_cons.mp hs2
          have hab : a.confidence = b.confidence := by
            rcases List.mem_cons.mp hamem with rfl | ha
            · rfl
            · rcases List.mem_cons.mp hbmem with rfl | hb
              · rfl
              · exact le_antisymm (h2.1 a ha) (h1.1 b hb)
          have hae : a = b := hinj a (List.mem_cons_self a t1) b hbmem hab
          subst hae
          have ht : t1.Perm t2 := hp.cons_inv
          rw [ih ht h1.2 h2.2 fun x hx y hy =>
            hinj x (List.mem_cons_of_mem a hx) y (List.mem_cons_of_mem a hy)]

/-- Under the same no-tie condition, sorting two permutations of each
other by descending confidence gives the same list. -/
theorem insertionSort_eq_of_perm {g1 g2 : List WordEntry} (hp : g1.Perm g2)
    (hinj : ∀ a ∈ g1, ∀ b ∈ g1, a.confidence = b.confidence → a = b) :
    List.insertionSort confGE g1 = List.insertionSort confGE g2 := by
  apply sorted_desc_eq
  · exact (List.perm_insertionSort confGE g1).trans
      (hp.trans (List.perm_insertionSort confGE g2).symm)
  · exact List.sorted_insertionSort confGE g1
  · exact List.sorted_insertionSort confGE g2
  · intro a ha b hb
    exact hinj a ((List.perm_insertionSort confGE g1).mem_iff.mp ha)
      b ((List.perm_insertionSort confGE g1).mem_iff.mp hb)

/-- `_merge_entries` is permutation-invariant on groups without distinct
entries of equal confidence. -/
theorem merge_entries_eq_of_perm {g1 g2 : List WordEntry} (hp : g1.Perm g2)
    (hinj : ∀ a ∈ g1, ∀ b ∈ g1, a.confidence = b.confidence → a = b) :
    merge_entries g1 = merge_entries g2 := by
  unfold merge_entries
  rw [insertionSort_eq_of_perm hp hinj]

/-- The per-group filter-and-merge step is permutation-invariant under the
same condition. -/
theorem procGroup_eq_of_perm {θ : ℚ} {g1 g2 : List WordEntry}
    (hp : g1.Perm g2)
    (hinj : ∀ a ∈ g1, ∀ b ∈ g1, a.confidence = b.confidence → a = b) :
    procGroup θ g1 = procGroup θ g2 := by
  unfold procGroup
  simp only
  have hrel : (g1.filter fun e => decide (θ ≤ e.confidence)).Perm
      (g2.filter fun e => decide (θ ≤ e.confidence)) := hp.filter _
  have hemp : (g1.filter fun e => decide (θ ≤ e.confidence)).isEmpty = true ↔
      (g2.filter fun e => decide (θ ≤ e.confidence)).isEmpty = true := by
    rw [List.isEmpty_iff, List.isEmpty_iff]
    constructor
    · intro h
      rw [h] at hrel
      exact hrel.symm.eq_nil
    · intro h
      rw [h] at hrel
      exact hrel.eq_nil
  by_cases h1 : (g1.filter fun e => decide (θ ≤ e.confidence)).isEmpty
  · rw [if_pos h1, if_pos (hemp.mp h1)]
  · rw [if_neg h1, if_neg (fun hcon => h1 (hemp.mpr hcon))]
    rw [merge_entries_eq_of_perm hrel fun a ha b hb =>
      hinj a (List.mem_of_mem_filter ha) b (List.mem_of_mem_filter hb)]

/-- The key lists of the groupings of two permuted inputs are permuted. -/
theorem keysOf_group_entries_perm {ws1 ws2 : List WordEntry}
    (hp : ws1.Perm ws2) :
    (keysOf (group_entries ws1)).Perm (keysOf (group_entries ws2)) := by
  refine (List.perm_ext_iff_of_nodup (nodup_keysOf_group_entries ws1)
    (nodup_keysOf_group_entries ws2)).mpr fun k => ?_
  rw [mem_keysOf_group_entries, mem_keysOf_group_entries]
  constructor
  · rintro ⟨e, he, hk⟩
    exact ⟨e, hp.subset he, hk⟩
  · rintro ⟨e, he, hk⟩
    exact ⟨e, hp.symm.subset he, hk⟩

/-- Permutation invariance of the grouping/filter/merge phase, given that
within a group equal confidences only occur between equal entries. -/
theorem reconcileEntries_perm {θ : ℚ} {ws1 ws2 : List WordEntry}
    (hp : ws1.Perm ws2)
    (hdist : ∀ a ∈ ws1, ∀ b ∈ ws1, gkey a = gkey b →
      a.confidence = b.confidence → a = b) :
    (reconcileEntries θ ws1).Perm (reconcileEntries θ ws2) := by
  rw [reconcileEntries_eq_keys, reconcileEntries_eq_keys]
  have hpt : ∀ k, procGroup θ (ws1.filter fun e => decide (gkey e = k)) =
      procGroup θ (ws2.filter fun e => decide (gkey e = k)) := by
    intro k
    apply procGroup_eq_of_perm (hp.filter _)
    intro a ha b hb
    have ha2 := List.mem_filter.mp ha
    have hb2 := List.mem_filter.mp hb
    have hka : gkey a = k := by simpa using ha2.2
    have hkb : gkey b = k := by simpa using hb2.2
    exact hdist a ha2.1 b hb2.1 (hka.trans hkb.symm)
  rw [List.filterMap_congr fun k _ => hpt k]
  exact (keysOf_group_entries_perm hp).filterMap _

/-! ## Claims -/

/-- C1: the Confidence Adjuster never returns an adjusted candidate at
all: for every candidate map and every source weight, evaluating the
`script_map` dict literal inside `DataCollector._adjust_confidence`
accesses `Script.GURMUKHI`, which is not a member of the `Script` enum, so
every call raises `AttributeError` — contradicting the claim that the
function returns `min(1.0, confidence * weight * penalty)` and never
raises. -/
theorem adjust_confidence_always_raises (w : WordInfo) (weight : ℚ) :
    adjust_confidence w weight = Except.error "AttributeError: GURMUKHI" := rfl

/-- C6: with the code as written, an adapter run that extracted three
valid entries (then hit a transient, internally-caught fetch error) does
*not* get those entries to the Reconciler: `_adjust_confidence` raises on
the first entry, the `except` block logs the error and drops the whole
batch, so the reconciler input is empty.  `cleanup()` is still invoked in
the `finally` block, and the error stays non-fatal. -/
theorem collect_drops_partial_entries :
    partialRun.extracted.length = 3 ∧
    reconcilerInput [(partialRun, 7 / 10)] = [] ∧
    (collectAll [(partialRun, 7 / 10)]).cleanups = 1 ∧
    (collectAll [(partialRun, 7 / 10)]).errors_logged = 1 :=
  ⟨rfl, rfl, rfl, rfl⟩

/-- C4 counterexample: U+0200 lies in no script's Unicode ranges (so every
per-script count of the one-character string is zero), yet
`ScriptUtils.get_script` returns `DEVANAGARI`, not the `LATIN` fallback:
Python's `max` over the all-zero counts dict returns the *first* key in
`Script`-enumeration order. -/
theorem get_script_fallback_counterexample :
    charScript 0x0200 = none ∧
    (∀ s, scriptCount [0x0200] s = 0) ∧
    get_script [0x0200] = Script.devanagari ∧
    get_script [0x0200] ≠ Script.latin := by decide

/-- C4 (amended): for every string in which no character falls inside any
script's Unicode ranges (every per-script count is zero),
`ScriptUtils.get_script` returns `DEVANAGARI` — the first member of the
`Script` enumeration — rather than the Latin/unclassified fallback. -/
theorem get_script_all_counts_zero (text : List Nat)
    (h : ∀ s, scriptCount text s = 0) :
    get_script text = Script.devanagari := by
  simp [get_script, h]

/-- C4 witness: `get_script_all_counts_zero` applied at the concrete
one-character string U+0200. -/
theorem get_script_all_counts_zero_witness :
    get_script [0x0200] = Script.devanagari :=
  get_script_all_counts_zero [0x0200] (by decide)

/-- C10 counterexample: with numerals disallowed, the Devanagari digit
U+0966 — which is numeric *and* lies inside the Devanagari ranges — makes
`ScriptUtils.validate_script` return `False`, while the claim's
disjunctive predicate (`numeric (when allowed) ∨ diacritic (when allowed)
∨ in expected ranges`) is satisfied: the checks are sequential, so a
numeral is judged only by `allow_numerals`, never by script membership. -/
theorem validate_script_iff_counterexample :
    isnumeric 0x0966 = true ∧
    inRanges Script.devanagari 0x0966 = true ∧
    validate_script [0x0966] Script.devanagari false true = false ∧
    conformsSpec [0x0966] Script.devanagari false true = true := by decide

/-- C10 (amended): `validate_script(text, expected, allowNumerals,
allowDiacritics)` returns `True` iff every non-whitespace character passes
the *sequential* checks: a numeric character is accepted iff numerals are
allowed (regardless of script membership), otherwise a recognized
diacritic is accepted iff diacritics are allowed, and otherwise the
character must lie in the expected script's ranges.  Whitespace characters
are always permitted and ignored, a single disqualifying character makes
the result `False`, and the empty string conforms. -/
theorem validate_script_sequential (text : List Nat) (expected : Script)
    (d dia : Bool) :
    (validate_script text expected d dia = true ↔
      ∀ c ∈ text, isspace c = false →
        (if isnumeric c then d = true
         else if DIACRITICS.contains c then dia = true
         else inRanges expected c = true)) ∧
    validate_script [] expected d dia = true := by
  refine ⟨?_, rfl⟩
  simp only [validate_script, List.all_eq_true]
  refine forall_congr' fun c => imp_congr_right fun _ => ?_
  cases hsp : isspace c <;> cases hn : isnumeric c <;>
    cases hd : DIACRITICS.contains c <;> simp [hsp, hn, hd]

/-- C10 witness: `validate_script_sequential` applied at a concrete
string (a Devanagari word with a digit and a space, numerals allowed),
instantiated at the digit character. -/
theorem validate_script_sequential_witness :
    if isnumeric 0x0966 then true = true
    else if DIACRITICS.contains 0x0966 then true = true
    else inRanges Script.devanagari 0x0966 = true :=
  ((validate_script_sequential [0x092F, 0x20, 0x0966] Script.devanagari
      true true).1.mp (by decide)) 0x0966 (by decide) (by decide)

/-- C5 counterexample: a single unknown source identifier aborts
`DataCollector.__init__` entirely: `self.SCRAPERS[scraper_id]` raises
`KeyError`, which the `except ValueError` handler does not catch — even
though the remaining (language, source) pair `("hindi", "wiktionary")` is
perfectly constructible, no adapter list is produced at all. -/
theorem init_unknown_source_id_aborts :
    initScraperPairs ["hindi"] ["unknown_dict", "wiktionary"] =
      Except.error "KeyError: unknown_dict" := rfl

/-- C5 (amended): provided every requested source identifier is a key of
`DataCollector.SCRAPERS`, adapter construction never aborts: a
`ValueError` from a scraper class that does not support the requested
language is caught, logged and that single pair skipped, and the
construction succeeds with exactly the supported (source, language,
weight) pairs in loop order.  (An *unknown* source identifier, by
contrast, raises an uncaught `KeyError` and aborts construction — see the
counterexample.) -/
theorem init_skips_unsupported_languages (languages active : List String)
    (h : ∀ sid ∈ active, (scraperTable sid).isSome) :
    initScraperPairs languages active =
      Except.ok (languages.flatMap fun lang => active.filterMap (pairFor lang)) := by
  unfold initScraperPairs
  suffices hgen : ∀ (langs : List String) (acc : List (String × String × ℚ)),
      langs.foldlM (fun acc lang => active.foldlM (constructPair lang) acc) acc =
        Except.ok (acc ++ langs.flatMap fun lang => active.filterMap (pairFor lang)) by
    simpa using hgen languages []
  intro langs
  induction langs with
  | nil => intro acc; simp; rfl
  | cons lang rest ih =>
    intro acc
    rw [List.foldlM_cons, foldlM_constructPair lang active acc h]
    show rest.foldlM _ (acc ++ active.filterMap (pairFor lang)) = _
    rw [ih (acc ++ active.filterMap (pairFor lang))]
    simp

/-- C5 witness: `init_skips_unsupported_languages` applied to the default
source-id list with languages `["punjabi", "hindi"]` — the pairs that
would raise `ValueError` (e.g. `punjabi_dict` for `hindi`) are skipped,
construction succeeds. -/
theorem init_skips_unsupported_languages_witness :
    initScraperPairs ["punjabi", "hindi"] allScraperIds =
      Except.ok (["punjabi", "hindi"].flatMap fun lang =>
        allScraperIds.filterMap (pairFor lang)) :=
  init_skips_unsupported_languages ["punjabi", "hindi"] allScraperIds (by decide)

/-- Conversion of a raw dict fails whenever a required field (or the
`'source'` key of its context) is missing — the `KeyError` path. -/
theorem toWordEntry_eq_none_of_missing (e : RawEntry)
    (h : e.word = none ∨ e.sanskrit_word = none ∨ e.language = none ∨
         e.confidence = none ∨ e.source_url = none ∨ e.context = none ∨
         ∃ c, e.context = some c ∧ c.source = none) :
    toWordEntry e = none := by
  cases hw : e.word <;> cases hsk : e.sanskrit_word <;>
    cases hlg : e.language <;> cases hcf : e.confidence <;>
    cases hurl : e.source_url <;> cases hctx : e.context <;>
    simp_all [toWordEntry]

/-- C2: for every surviving group that `_merge_entries` actually merges,
the record's confidence equals
`min(1, primary.confidence * (1 + 0.1 * agreement * (n - 1)))` with the
primary's confidence being the group maximum and the agreement score equal
to 1 for a single survivor and `sum / (n * max)` otherwise; consequently a
single-survivor group (confidence ≤ 1) keeps that survivor's confidence
exactly. -/
theorem merge_confidence_formula (g : List WordEntry) (m : MergedEntry)
    (hm : merge_entries g = some m) :
    m.confidence = min 1 (maxConf g *
      (1 + (1 / 10 : ℚ) *
        (if g.length = 1 then 1
         else confSum g / ((g.length : ℚ) * maxConf g)) *
        ((g.length : ℚ) - 1))) ∧
    (g.length = 1 → maxConf g ≤ 1 → m.confidence = maxConf g) := by
  have hg : g ≠ [] := by
    intro hcon
    subst hcon
    simp [merge_entries] at hm
  obtain ⟨p, m2, hm2, hpg, hmax, _, _, _, _, _, hconf, _⟩ :=
    merge_entries_spec g hg
  have hmm : m = m2 := by
    rw [hm] at hm2
    exact Option.some.inj hm2
  subst hmm
  have hpmax : p.confidence = maxConf g := by
    refine le_antisymm (le_listMax _ _ (List.mem_map_of_mem _ hpg)) ?_
    obtain ⟨x, hx, hxe⟩ := List.mem_map.mp
      (listMax_mem (g.map (·.confidence)) (by simpa using hg))
    calc maxConf g = x.confidence := hxe.symm
      _ ≤ p.confidence := hmax x hx
  have hagree : calculate_agreement_score g =
      if g.length = 1 then 1
      else confSum g / ((g.length : ℚ) * maxConf g) := by
    unfold calculate_agreement_score
    have hlen : 1 ≤ g.length := by
      cases g with
      | nil => exact absurd rfl hg
      | cons a t => simp
    by_cases h1 : g.length = 1
    · rw [if_pos (by omega), if_pos h1]
    · rw [if_neg (by omega), if_neg h1]
  refine ⟨by rw [hconf, hpmax, hagree], ?_⟩
  intro hlen1 hle
  rw [hconf, hpmax, hlen1]
  have h0 : ((1 : Nat) : ℚ) - 1 = 0 := by norm_num
  rw [h0, mul_zero, add_zero, mul_one]
  exact min_eq_right hle

/-- C2 witness: `merge_confidence_formula` at the concrete singleton group
`[entA]`. -/
theorem merge_confidence_formula_witness :
    (mergeSorted entA []).confidence = min 1 (maxConf [entA] *
      (1 + (1 / 10 : ℚ) *
        (if [entA].length = 1 then 1
         else confSum [entA] / (([entA].length : ℚ) * maxConf [entA])) *
        (([entA].length : ℚ) - 1))) ∧
    ([entA].length = 1 → maxConf [entA] ≤ 1 →
      (mergeSorted entA []).confidence = maxConf [entA]) :=
  merge_confidence_formula [entA] (mergeSorted entA []) rfl

/-- C7: every record emitted by the reconciliation phase is the merge of
exactly the above-threshold candidates of its own group, and a group in
which every candidate's confidence is below the threshold produces no
record (no emitted record carries its key). -/
theorem reconcile_threshold_filter (θ : ℚ) (ws : List WordEntry)
    (r : ReconciledRecord) (hr : r ∈ reconcileEntries θ ws)
    (k : String × String × String)
    (hlow : ∀ e ∈ ws, gkey e = k → e.confidence < θ) :
    (merge_entries ((ws.filter fun e => decide (gkey e = recKey r)).filter
        fun e => decide (θ ≤ e.confidence))).map toRecord = some r ∧
    recKey r ≠ k := by
  have hpk := mem_reconcileEntries hr
  obtain ⟨p, hpmem, hkey, _, _, _, hmap⟩ := procGroup_some hpk
  refine ⟨hmap, ?_⟩
  intro hcon
  have h1 := List.mem_filter.mp hpmem
  have h2 := List.mem_filter.mp h1.1
  have hθ : θ ≤ p.confidence := by simpa using h1.2
  have hgk : gkey p = recKey r := by
    have := h2.2
    simp only [decide_eq_true_eq] at this
    exact this
  exact absurd (hlow p h2.1 (hgk.trans hcon)) (not_lt.mpr hθ)

/-- C7 witness: `reconcile_threshold_filter` at threshold 0.7 on the
two-group input `[entLow, entA]` (the `entLow` group is entirely below
threshold and emits nothing; the `entA` group emits the merged record). -/
theorem reconcile_threshold_filter_witness :
    (merge_entries (([entLow, entA].filter fun e =>
        decide (gkey e = recKey (toRecord (mergeSorted entA [])))).filter
        fun e => decide (mkRat 7 10 ≤ e.confidence))).map toRecord =
      some (toRecord (mergeSorted entA [])) ∧
    recKey (toRecord (mergeSorted entA [])) ≠ gkey entLow :=
  reconcile_threshold_filter (mkRat 7 10) [entLow, entA]
    (toRecord (mergeSorted entA []))
    (by rw [reconcileEntries_eval_sample]; exact List.mem_singleton.mpr rfl)
    (gkey entLow) (by decide)

/-- C8: every record emitted by `reconcile` (inputs with confidences in
[0,1]) has confidence at most 1, a source URL taken from a candidate of
its own group, and a source count equal to the number of its group's
candidates that passed the reliability threshold. -/
theorem reconcile_record_invariants (θ : ℚ) (l : List RawEntry)
    (hconf : ∀ e ∈ l, ∀ c, e.confidence = some c → 0 ≤ c ∧ c ≤ 1)
    (r : ReconciledRecord) (hr : r ∈ reconcile θ l) :
    r.confidence ≤ 1 ∧
    (∃ w ∈ l.filterMap toWordEntry, gkey w = recKey r ∧
        w.source_url = r.source_url) ∧
    r.context.source_count =
      (((l.filterMap toWordEntry).filter
          fun e => decide (gkey e = recKey r)).filter
        fun e => decide (θ ≤ e.confidence)).length := by
  have hpk := mem_reconcileEntries hr
  obtain ⟨p, hpmem, hkey, hurl, hle1, hcount, _⟩ := procGroup_some hpk
  have h1 := List.mem_filter.mp hpmem
  have h2 := List.mem_filter.mp h1.1
  have hgk : gkey p = recKey r := by
    have := h2.2
    simp only [decide_eq_true_eq] at this
    exact this
  exact ⟨hle1, ⟨p, h2.1, hgk, hurl.symm⟩, hcount⟩

/-- C8 witness: `reconcile_record_invariants` at threshold 0.7 on the
concrete raw input `[rawA]`, instantiated at its single output record. -/
theorem reconcile_record_invariants_witness :
    (toRecord (mergeSorted entA [])).confidence ≤ 1 ∧
    (∃ w ∈ [rawA].filterMap toWordEntry,
        gkey w = recKey (toRecord (mergeSorted entA [])) ∧
        w.source_url = (toRecord (mergeSorted entA [])).source_url) ∧
    (toRecord (mergeSorted entA [])).context.source_count =
      ((([rawA].filterMap toWordEntry).filter
          fun e => decide (gkey e = recKey (toRecord (mergeSorted entA [])))).filter
        fun e => decide (mkRat 7 10 ≤ e.confidence)).length :=
  reconcile_record_invariants (mkRat 7 10) [rawA]
    (by
      intro e he c hc
      rcases List.mem_singleton.mp he with rfl
      rw [show rawA.confidence = some 1 from rfl] at hc
      injection hc with h
      subst h
      constructor <;> norm_num)
    (toRecord (mergeSorted entA []))
    (by rw [show reconcile (mkRat 7 10) [rawA] =
          [toRecord (mergeSorted entA [])] from reconcile_eval_sample]
        exact List.mem_singleton.mpr rfl)

/-- C9: a raw element missing a required field (`word`, `sanskrit_word`,
`language`, `confidence`, `source_url`, or a context with a `'source'`
key) is skipped during conversion, and `reconcile` returns exactly what it
returns on the list without that element — one malformed element never
disturbs the rest and raises no exception. -/
theorem reconcile_skips_malformed (θ : ℚ) (l1 l2 : List RawEntry)
    (e : RawEntry)
    (h : e.word = none ∨ e.sanskrit_word = none ∨ e.language = none ∨
         e.confidence = none ∨ e.source_url = none ∨ e.context = none ∨
         ∃ c, e.context = some c ∧ c.source = none) :
    reconcile θ (l1 ++ e :: l2) = reconcile θ (l1 ++ l2) := by
  simp [reconcile, List.filterMap_append, List.filterMap_cons,
    toWordEntry_eq_none_of_missing e h]

/-- C9 witness: `reconcile_skips_malformed` on `[rawA] ++ [rawBad]`
(`rawBad` has no `confidence` key). -/
theorem reconcile_skips_malformed_witness :
    reconcile (mkRat 7 10) ([rawA] ++ rawBad :: []) =
      reconcile (mkRat 7 10) ([rawA] ++ []) :=
  reconcile_skips_malformed (mkRat 7 10) [rawA] [] rawBad
    (Or.inr (Or.inr (Or.inr (Or.inl rfl))))

/-- C3 counterexample: permuting the input changes the emitted record.
`rawA` and `rawB` share the grouping key and the confidence (a tie) but
come from different sources: the stable descending sort keeps input order
among ties, so the primary — and with it the record's `source_url` — is
whichever candidate came first.  The two orders of the same two candidates
yield different record sets. -/
theorem reconcile_perm_counterexample :
    [rawB, rawA].Perm [rawA, rawB] ∧
    (reconcile defaultThreshold [rawA, rawB]).map (·.source_url) =
      ["https://a.example/1"] ∧
    (reconcile defaultThreshold [rawB, rawA]).map (·.source_url) =
      ["https://b.example/2"] ∧
    ¬ (reconcile defaultThreshold [rawA, rawB]).Perm
        (reconcile defaultThreshold [rawB, rawA]) := by
  refine ⟨List.Perm.swap _ _ _, rfl, rfl, ?_⟩
  intro hper
  have hmap := hper.map (·.source_url)
  rw [show (reconcile defaultThreshold [rawA, rawB]).map (·.source_url) =
        ["https://a.example/1"] from rfl,
      show (reconcile defaultThreshold [rawB, rawA]).map (·.source_url) =
        ["https://b.example/2"] from rfl] at hmap
  exact absurd (List.perm_singleton.mp hmap) (by decide)

/-- C3 (amended): reconciliation is permutation-invariant — the permuted
input yields the same multiset of reconciled records (record `meanings`
and `usage_examples` are sets, so their internal order is already
ignored) — *provided* that within each group candidates that tie on
confidence are equal; when distinct candidates of one group tie, the
primary (hence the record's `source_url` and the order of
`context.sources`) follows input order instead. -/
theorem reconcile_perm_invariant (θ : ℚ) (l1 l2 : List RawEntry)
    (hperm : l1.Perm l2)
    (hdist : ∀ a ∈ l1.filterMap toWordEntry, ∀ b ∈ l1.filterMap toWordEntry,
      gkey a = gkey b → a.confidence = b.confidence → a = b) :
    (reconcile θ l1).Perm (reconcile θ l2) := by
  unfold reconcile
  exact reconcileEntries_perm (hperm.filterMap toWordEntry) hdist

/-- C3 witness: `reconcile_perm_invariant` on the concrete pair
`[rawA, rawC]` / `[rawC, rawA]` (same key, distinct confidences 1, 0). -/
theorem reconcile_perm_invariant_witness :
    (reconcile 0 [rawA, rawC]).Perm (reconcile 0 [rawC, rawA]) :=
  reconcile_perm_invariant 0 [rawA, rawC] [rawC, rawA]
    (List.Perm.swap rawC rawA []) (by decide)

end ShabdaSetu
